import Mathlib

/-!
Verification development for the ridge landscape-evolution model
(src/ridge_model.py).  The driver loop of the notebook is embedded
directly from the source; the Landlab components it calls
(LinearDiffuser, FlowAccumulator, FastscapeEroder) are not part of the
repository, so they are modelled from the specification, as noted in
the doc comments of the corresponding definitions.  All elevations,
areas and coefficients are rational numbers; per-node fields are lists
indexed by node id (node = row * ncols + col, as in Landlab).
-/

/-- Boundary status of a node, as in the specification: CORE,
FIXED_VALUE or CLOSED. -/
inductive BStatus where
  | core : BStatus
  | fixedValue : BStatus
  | closed : BStatus
deriving DecidableEq, Repr

open BStatus

/-- Default status of the grid produced by read_esri_ascii: perimeter
nodes are FIXED_VALUE, interior nodes are CORE (Landlab default,
before the two reclassification loops of src/ridge_model.py lines
60-63). -/
def baseStatus (nr nc : ℕ) (n : ℕ) : BStatus :=
  if n / nc = 0 ∨ n / nc = nr - 1 ∨ n % nc = 0 ∨ n % nc = nc - 1 then fixedValue else core

/-- Status write for the first loop of the boundary setup
(src/ridge_model.py lines 60-61): every node of the top or bottom edge
is set to FIXED_VALUE. -/
def setTopBottom (nr nc : ℕ) (f : ℕ → BStatus) : ℕ → BStatus :=
  fun n => if n / nc = 0 ∨ n / nc = nr - 1 then fixedValue else f n

/-- Status write for the second loop of the boundary setup
(src/ridge_model.py lines 62-63): every node of the left or right edge
is set to CLOSED.  This write happens after setTopBottom, so it wins
on the four corner nodes. -/
def setLeftRight (nc : ℕ) (f : ℕ → BStatus) : ℕ → BStatus :=
  fun n => if n % nc = 0 ∨ n % nc = nc - 1 then closed else f n

/-- Node status after the boundary setup of src/ridge_model.py lines
60-63: top and bottom edges FIXED_VALUE, then left and right edges
CLOSED (the later write determines the corners). -/
def ridgeStatus (nr nc : ℕ) : ℕ → BStatus :=
  setLeftRight nc (setTopBottom nr nc (baseStatus nr nc))

/-- Elevation (or any per-node rational field) read with default 0 for
out-of-range ids. -/
def elevOf (z : List ℚ) (n : ℕ) : ℚ := z.getD n 0

/-- Row of a tridiagonal linear system: sub-diagonal coefficient a,
diagonal b, super-diagonal c, right-hand side d. -/
structure TRow where
  a : ℚ
  b : ℚ
  c : ℚ
  d : ℚ
deriving DecidableEq, Repr

/-- Forward-elimination sweep of the tridiagonal (Thomas) solve,
carrying the previous modified super-diagonal and right-hand side. -/
def fwdAux (cp dp : ℚ) : List TRow → List (ℚ × ℚ)
  | [] => []
  | row :: rest =>
    let den := row.b - row.a * cp
    let cq := row.c / den
    let dq := (row.d - row.a * dp) / den
    (cq, dq) :: fwdAux cq dq rest

/-- Back-substitution phase of the tridiagonal solve: the head of the
recursive result is the unknown one position further down the line. -/
def backSub : List (ℚ × ℚ) → List ℚ
  | [] => []
  | (cq, dq) :: rest =>
    let xs := backSub rest
    (dq - cq * xs.headD 0) :: xs

/-- Direct tridiagonal solve (Thomas algorithm), as required by the
specification for the implicit diffusion step. -/
def triSolve (rows : List TRow) : List ℚ := backSub (fwdAux 0 0 rows)

/-- Modelled from the spec: assembly of the tridiagonal system of the
implicit (backward-time) diffusion discretization along one lattice
line (spec 4.3); the LinearDiffuser component itself is not in src/.
FIXED_VALUE and CLOSED nodes get pinned Dirichlet rows, CORE nodes get
an implicit Laplacian row whose coupling to a CLOSED neighbour is
dropped (zero-flux), with r the nondimensional diffusion number.  The
off-diagonal coupling of a CORE node towards a neighbour of the given
status is -r, or 0 across a CLOSED or absent neighbour. -/
def offDiag (r : ℚ) : Option BStatus → ℚ
  | some ps => if ps = closed then 0 else -r
  | none => 0

/-- Single row of the implicit diffusion system for one node, given
the statuses of its two line neighbours (none when the node is at a
line end). -/
def mkRow (r : ℚ) (prev next : Option BStatus) (s : BStatus) (zv : ℚ) : TRow :=
  if s = core then
    ⟨offDiag r prev, 1 - offDiag r prev - offDiag r next, offDiag r next, zv⟩
  else ⟨0, 1, 0, zv⟩

def mkRows (r : ℚ) : Option BStatus → List (BStatus × ℚ) → List TRow
  | _, [] => []
  | prev, (s, zv) :: rest =>
    mkRow r prev (rest.head?.map Prod.fst) s zv :: mkRows r (some s) rest

/-- Implicit solve of one lattice line: assemble the tridiagonal rows
from the statuses and old elevations and run the Thomas solve. -/
def lineSolve (r : ℚ) (line : List (BStatus × ℚ)) : List ℚ :=
  triSolve (mkRows r none line)

/-- Column j of the grid as a line of (status, elevation) pairs, from
bottom row to top row. -/
def colLine (nr nc : ℕ) (st : ℕ → BStatus) (z : List ℚ) (j : ℕ) : List (BStatus × ℚ) :=
  (List.range nr).map (fun i => (st (i * nc + j), elevOf z (i * nc + j)))

/-- Row i of the grid as a line of (status, elevation) pairs, from
left column to right column. -/
def rowLine (nc : ℕ) (st : ℕ → BStatus) (z : List ℚ) (i : ℕ) : List (BStatus × ℚ) :=
  (List.range nc).map (fun j => (st (i * nc + j), elevOf z (i * nc + j)))

/-- Implicit diffusion applied along every column (cross-row lattice
direction). -/
def diffuseCols (nr nc : ℕ) (st : ℕ → BStatus) (r : ℚ) (z : List ℚ) : List ℚ :=
  let sols := (List.range nc).map (fun j => lineSolve r (colLine nr nc st z j))
  (List.range (nr * nc)).map (fun n => (sols.getD (n % nc) []).getD (n / nc) 0)

/-- Implicit diffusion applied along every row (cross-column lattice
direction). -/
def diffuseRows (nr nc : ℕ) (st : ℕ → BStatus) (r : ℚ) (z : List ℚ) : List ℚ :=
  let sols := (List.range nr).map (fun i => lineSolve r (rowLine nc st z i))
  (List.range (nr * nc)).map (fun n => (sols.getD (n / nc) []).getD (n % nc) 0)

/-- Modelled from the spec: one implicit diffusion step (spec 4.3, the
LinearDiffuser component is not in src/).  The two lattice directions
are handled by an operator-split pair of unconditionally stable
one-dimensional implicit solves, each a tridiagonal direct solve, with
r = D * dt / dx^2. -/
def diffuse (nr nc : ℕ) (st : ℕ → BStatus) (r : ℚ) (z : List ℚ) : List ℚ :=
  diffuseRows nr nc st r (diffuseCols nr nc st r z)

/-- D8 neighbourhood of a node: the up-to-8 lattice neighbours
determined by the row/column position (flow_director is D8 in
src/ridge_model.py line 92). -/
def neighborList (nr nc : ℕ) (n : ℕ) : List ℕ :=
  let r : ℤ := (n / nc : ℕ)
  let c : ℤ := (n % nc : ℕ)
  ([(-1, -1), (-1, 0), (-1, 1), (0, -1), (0, 1), (1, -1), (1, 0), (1, 1)] : List (ℤ × ℤ)).filterMap
    (fun p =>
      let ri := r + p.1
      let ci := c + p.2
      if 0 ≤ ri ∧ ri < (nr : ℤ) ∧ 0 ≤ ci ∧ ci < (nc : ℤ) then
        some (ri.toNat * nc + ci.toNat)
      else none)

/-- Choice of the better flow target between two candidates: lower
elevation wins, and an exact elevation tie is broken deterministically
by the lower node id (spec 4.2 determinism requirement). -/
def pickLower (z : List ℚ) (m₁ m₂ : ℕ) : ℕ :=
  if elevOf z m₂ < elevOf z m₁ ∨ (elevOf z m₂ = elevOf z m₁ ∧ m₂ < m₁) then m₂ else m₁

/-- Modelled from the spec: the receiver of a node under
steepest-descent flow routing (spec 4.2; the FlowAccumulator component
is not in src/).  A CORE node flows to its lowest-elevation
non-CLOSED neighbour provided that neighbour is strictly lower,
otherwise it is its own receiver; FIXED_VALUE and CLOSED nodes are
always their own receiver (outlets, or excluded). -/
def receiver (nr nc : ℕ) (st : ℕ → BStatus) (z : List ℚ) (n : ℕ) : ℕ :=
  if st n = core then
    match (neighborList nr nc n).filter
        (fun m => decide (st m ≠ closed ∧ elevOf z m < elevOf z n)) with
    | [] => n
    | h :: t => t.foldl (pickLower z) h
  else n

/-- Ordering used for the per-step topological traversal: decreasing
elevation, exact ties broken by increasing node id (spec 4.2
deterministic tie-break). -/
def ordRel (z : List ℚ) (a b : ℕ) : Prop :=
  elevOf z b < elevOf z a ∨ (elevOf z b = elevOf z a ∧ a ≤ b)

instance ordRelDecidable (z : List ℚ) : DecidableRel (ordRel z) := fun a b => by
  unfold ordRel; infer_instance

/-- Non-CLOSED nodes sorted in decreasing-elevation order (the
topological order used for drainage-area accumulation, spec 4.2);
CLOSED nodes are excluded from the traversal entirely. -/
def procList (nr nc : ℕ) (st : ℕ → BStatus) (z : List ℚ) : List ℕ :=
  List.insertionSort (ordRel z)
    ((List.range (nr * nc)).filter (fun n => decide (st n ≠ closed)))

/-- Initial per-node drainage area: each non-CLOSED node starts with
its own cell area dx^2, CLOSED nodes are excluded (area 0). -/
def initArea (nr nc : ℕ) (st : ℕ → BStatus) (dx : ℚ) : List ℚ :=
  (List.range (nr * nc)).map (fun n => if st n = closed then 0 else dx * dx)

/-- Modelled from the spec: drainage-area accumulation pass (spec
4.2).  Nodes are processed in decreasing-elevation order and each node
adds its accumulated area to its receiver, so every area is finalized
before it is passed downstream. -/
def accumArea (recv : ℕ → ℕ) : List ℕ → List ℚ → List ℚ
  | [], A => A
  | m :: L, A =>
    if recv m = m then accumArea recv L A
    else accumArea recv L (A.set (recv m) (A.getD (recv m) 0 + A.getD m 0))

/-- Drainage area of every node, recomputed from an elevation field:
receiver selection followed by the sorted accumulation pass. -/
def drainage (nr nc : ℕ) (st : ℕ → BStatus) (dx : ℚ) (z : List ℚ) : List ℚ :=
  accumArea (receiver nr nc st z) (procList nr nc st z) (initArea nr nc st dx)

/-- Modelled from the spec: the per-node implicit stream-power update
of the fluvial solver (spec 4.4; the FastscapeEroder component is not
in src/).  Only CORE nodes with a receiver other than themselves can
erode.  Slope is computed against the receiver elevation (already
final, thanks to the downstream-to-upstream sweep order) and clamped
at 0; if the stream power K_sp * A^m * S does not exceed the
threshold, no erosion is applied, else the implicit closed form for
slope exponent n = 1 (the configured n_sp = 1.0 of src/ridge_model.py
line 98) is used.  The area exponent map pwA stands for A mapsto A^m
(m is a real exponent, 0.5 in the source, so it is kept as an
arbitrary function parameter and every theorem is proved for all of
them); plen is the flow-path length of the link to the receiver
(kept abstract because diagonal D8 links have irrational length
dx * sqrt 2). -/
def erodeUpdate (Ksp thr dt : ℚ) (pwA : ℚ → ℚ) (plen : ℕ → ℚ) (st : ℕ → BStatus)
    (recv : ℕ → ℕ) (A : List ℚ) (m : ℕ) (z : List ℚ) : List ℚ :=
  if st m = core ∧ recv m ≠ m then
    if Ksp * pwA (A.getD m 0) * max 0 ((elevOf z m - elevOf z (recv m)) / plen m) ≤ thr then z
    else z.set m ((elevOf z m + (dt * Ksp * pwA (A.getD m 0) / plen m) * elevOf z (recv m)) /
      (1 + dt * Ksp * pwA (A.getD m 0) / plen m))
  else z

/-- Downstream-to-upstream sweep of the fluvial solver: process the
given node order, updating the elevation field in place. -/
def erodeSweep (Ksp thr dt : ℚ) (pwA : ℚ → ℚ) (plen : ℕ → ℚ) (st : ℕ → BStatus)
    (recv : ℕ → ℕ) (A : List ℚ) : List ℕ → List ℚ → List ℚ
  | [], z => z
  | m :: L, z => erodeSweep Ksp thr dt pwA plen st recv A L (erodeUpdate Ksp thr dt pwA plen st recv A m z)

/-- Configuration of the simulation, mirroring the knobs of
src/ridge_model.py (D, Ksp, threshold, uplift_rate, dt, dx) together
with the two abstracted real-exponent ingredients of the fluvial law
(see erodeUpdate). -/
structure Config where
  nr : ℕ
  nc : ℕ
  dx : ℚ
  diffusivity : ℚ
  Ksp : ℚ
  thr : ℚ
  upliftRate : ℚ
  dt : ℚ
  pwA : ℚ → ℚ
  plen : ℕ → ℚ

/-- Nondimensional diffusion number r = D * dt / dx^2 of the implicit
diffusion solve. -/
def rcoef (cfg : Config) : ℚ := cfg.diffusivity * cfg.dt / (cfg.dx * cfg.dx)

/-- One fluvial-solver application as the driver performs it
(erode.run_one_step, src/ridge_model.py line 141): receivers, areas
and sweep order are those computed by flow routing from the very
elevation field being eroded. -/
def fluvialSolve (cfg : Config) (st : ℕ → BStatus) (z : List ℚ) : List ℚ :=
  erodeSweep cfg.Ksp cfg.thr cfg.dt cfg.pwA cfg.plen st
    (receiver cfg.nr cfg.nc st z) (drainage cfg.nr cfg.nc st cfg.dx z)
    ((procList cfg.nr cfg.nc st z).reverse) z

/-- State carried across timesteps: the mutable per-node fields of the
Landlab grid used by the driver (topographic__elevation,
drainage_area, erode_dep, t_erode_dep). -/
structure SimState where
  elev : List ℚ
  area : List ℚ
  eroDep : List ℚ
  tEroDep : List ℚ
deriving DecidableEq, Repr

/-- Pointwise sum of two per-node fields. -/
def addList (a b : List ℚ) : List ℚ := List.zipWith (· + ·) a b

/-- Pointwise difference of two per-node fields. -/
def subList (a b : List ℚ) : List ℚ := List.zipWith (· - ·) a b

/-- Uplift application (src/ridge_model.py line 145): add a constant
increment to every CORE node of the elevation field, leaving all other
nodes untouched. -/
def addCore (st : ℕ → BStatus) (u : ℚ) (z : List ℚ) : List ℚ :=
  (List.range z.length).map (fun n => if st n = core then elevOf z n + u else elevOf z n)

/-- One timestep of the driver loop, embedded statement by statement
from src/ridge_model.py lines 136-145: window pre-recording of the
elevation (lines 136-138), diffusion (line 139), flow routing
(line 140), fluvial erosion (line 141), window recording of the
elevation change (lines 142-144), uplift (line 145). -/
def stepSim (cfg : Config) (st : ℕ → BStatus) (i : ℕ) (s : SimState) : SimState :=
  let ed0 := if 900 < i then s.elev else s.eroDep
  let z1 := diffuse cfg.nr cfg.nc st (rcoef cfg) s.elev
  let ar1 := drainage cfg.nr cfg.nc st cfg.dx z1
  let z2 := fluvialSolve cfg st z1
  let ed1 := if 900 < i then subList ed0 z2 else ed0
  let te1 := if 900 < i then addList s.tEroDep ed1 else s.tEroDep
  let z3 := addCore st (cfg.upliftRate * cfg.dt) z2
  ⟨z3, ar1, ed1, te1⟩

/-- Per-step order as claimed by the specification (spec 4.7): flow
routing first on the current (pre-diffusion) elevation, then
diffusion, then the fluvial step using the pre-diffusion drainage
areas and receivers, then window recording, then uplift.  This
definition follows the words of the claim, for comparison against
stepSim which is embedded from the source. -/
def stepClaim (cfg : Config) (st : ℕ → BStatus) (i : ℕ) (s : SimState) : SimState :=
  let recv0 := receiver cfg.nr cfg.nc st s.elev
  let ar0 := drainage cfg.nr cfg.nc st cfg.dx s.elev
  let ord0 := (procList cfg.nr cfg.nc st s.elev).reverse
  let ed0 := if 900 < i then s.elev else s.eroDep
  let z1 := diffuse cfg.nr cfg.nc st (rcoef cfg) s.elev
  let z2 := erodeSweep cfg.Ksp cfg.thr cfg.dt cfg.pwA cfg.plen st recv0 ar0 ord0 z1
  let ed1 := if 900 < i then subList ed0 z2 else ed0
  let te1 := if 900 < i then addList s.tEroDep ed1 else s.tEroDep
  let z3 := addCore st (cfg.upliftRate * cfg.dt) z2
  ⟨z3, ar0, ed1, te1⟩

/-- Initial driver state for an initial elevation field: the logging
fields are created as zeros (src/ridge_model.py lines 89-90 and 134)
and the drainage-area field starts at zero. -/
def initState (z0 : List ℚ) : SimState :=
  ⟨z0, List.replicate z0.length 0, List.replicate z0.length 0, List.replicate z0.length 0⟩

/-- State of the simulation before iteration i of the driver loop. -/
def simStates (cfg : Config) (st : ℕ → BStatus) (z0 : List ℚ) : ℕ → SimState
  | 0 => initState z0
  | i + 1 => stepSim cfg st i (simStates cfg st z0 i)

/-- Full driver run (src/ridge_model.py lines 134-148): the loop body
executes for i in range(nt + 1), so nt + 1 times, and afterwards the
accumulated t_erode_dep field is scaled by 0.001 = 1/1000 (line
148). -/
def runSim (cfg : Config) (st : ℕ → BStatus) (nt : ℕ) (z0 : List ℚ) : SimState :=
  let s := simStates cfg st z0 (nt + 1)
  ⟨s.elev, s.area, s.eroDep, s.tEroDep.map (· * (1 / 1000))⟩

/-- Diffusion component application viewed as a state transformer
(lin_diffuse.run_one_step, src/ridge_model.py line 139). -/
def diffusionPhase (cfg : Config) (st : ℕ → BStatus) (s : SimState) : SimState :=
  ⟨diffuse cfg.nr cfg.nc st (rcoef cfg) s.elev, s.area, s.eroDep, s.tEroDep⟩

/-- Flow-routing component application viewed as a state transformer
(fr.run_one_step, src/ridge_model.py line 140): recomputes the
drainage-area field from the current elevation. -/
def routingPhase (cfg : Config) (st : ℕ → BStatus) (s : SimState) : SimState :=
  ⟨s.elev, drainage cfg.nr cfg.nc st cfg.dx s.elev, s.eroDep, s.tEroDep⟩

/-- Fluvial component application viewed as a state transformer
(erode.run_one_step, src/ridge_model.py line 141). -/
def fluvialPhase (cfg : Config) (st : ℕ → BStatus) (s : SimState) : SimState :=
  ⟨fluvialSolve cfg st s.elev, s.area, s.eroDep, s.tEroDep⟩

/-- Accumulator pre-recording (src/ridge_model.py lines 136-138):
inside the trailing window, erode_dep is reset to the current
elevation. -/
def recordBeginPhase (i : ℕ) (s : SimState) : SimState :=
  if 900 < i then ⟨s.elev, s.area, s.elev, s.tEroDep⟩ else s

/-- Accumulator recording (src/ridge_model.py lines 142-144): inside
the trailing window, erode_dep becomes the recorded elevation minus
the current elevation and is added into t_erode_dep. -/
def recordEndPhase (i : ℕ) (s : SimState) : SimState :=
  if 900 < i then
    ⟨s.elev, s.area, subList s.eroDep s.elev, addList s.tEroDep (subList s.eroDep s.elev)⟩
  else s

/-- Uplift forcing viewed as a state transformer (src/ridge_model.py
line 145). -/
def upliftPhase (cfg : Config) (st : ℕ → BStatus) (s : SimState) : SimState :=
  ⟨addCore st (cfg.upliftRate * cfg.dt) s.elev, s.area, s.eroDep, s.tEroDep⟩

/-- Elevation entering iteration i of the driver loop. -/
def preElev (cfg : Config) (st : ℕ → BStatus) (z0 : List ℚ) (i : ℕ) : List ℚ :=
  (simStates cfg st z0 i).elev

/-- Elevation of iteration i after the diffusion and fluvial updates
but before uplift. -/
def midElev (cfg : Config) (st : ℕ → BStatus) (z0 : List ℚ) (i : ℕ) : List ℚ :=
  fluvialSolve cfg st (diffuse cfg.nr cfg.nc st (rcoef cfg) (preElev cfg st z0 i))

/-- Elevation drop of node n across the diffusion and fluvial updates
of iteration i (positive when the node loses elevation); uplift is
applied after this quantity is read off and never enters it. -/
def stepDrop (cfg : Config) (st : ℕ → BStatus) (z0 : List ℚ) (i n : ℕ) : ℚ :=
  elevOf (preElev cfg st z0 i) n - elevOf (midElev cfg st z0 i) n

/-- Total drainage area held at outlet nodes (nodes that are their own
receiver) among the first N node ids. -/
def outletSum (recv : ℕ → ℕ) (N : ℕ) (A : List ℚ) : ℚ :=
  (((List.range N).filter (fun n => decide (recv n = n))).map (fun n => A.getD n 0)).sum

/-- Stream power of node m as computed by the fluvial solver on
elevation field z: the coefficient K_sp times the area exponent map
applied to the drainage area, times the clamped slope towards the
receiver (whose elevation is final by the time m is processed, hence
read from the solver output). -/
def streamPower (cfg : Config) (st : ℕ → BStatus) (z : List ℚ) (m : ℕ) : ℚ :=
  cfg.Ksp * cfg.pwA ((drainage cfg.nr cfg.nc st cfg.dx z).getD m 0) *
    max 0 ((elevOf z m - elevOf (fluvialSolve cfg st z) (receiver cfg.nr cfg.nc st z m)) /
      cfg.plen m)

/-- Configuration matching the source parameters of the simulation run
(src/ridge_model.py lines 71-109): D = 1.0, Ksp = 0.0, threshold 0.0,
uplift_rate 0.0012, dt = 10, dx = 3, on a 5 by 5 grid stand-in; the
abstracted area-exponent map is the identity and the flow-path length
is the straight-link length dx = 3. -/
def cexConfig : Config := ⟨5, 5, 3, 1, 0, 0, 3/2500, 10, id, fun _ => 3⟩

/-- Elevation field on which pre-diffusion and post-diffusion flow
routing give different drainage areas: diffusion pulls node 6 up
(next to the high node 11) and node 8 down, flipping the receiver of
the interior high node. -/
def cexElev : List ℚ :=
  [0, 0, 0, 0, 0,
   5, 1, 9, 101/100, 5,
   5, 40, 10, 1, 5,
   5, 9, 9, 9, 5,
   0, 0, 0, 0, 0]

/-- Driver state holding cexElev with freshly zeroed logging fields. -/
def cexState : SimState :=
  ⟨cexElev, List.replicate 25 0, List.replicate 25 0, List.replicate 25 0⟩

/-- Configuration of the end-to-end scenario of the specification
(section 8): 5 by 5 grid, dx = 1, D = 1.0, K_sp = 0.0, threshold 0,
uplift of 0.001 per step (rate 0.001 with dt = 1). -/
def flatConfig : Config := ⟨5, 5, 1, 1, 0, 0, 1/1000, 1, id, fun _ => 1⟩

/-- The same scenario with D = 0.0, so that diffusion cannot
redistribute the uplifted material once the field stops being flat. -/
def flatConfigZeroD : Config := ⟨5, 5, 1, 0, 0, 0, 1/1000, 1, id, fun _ => 1⟩

/-- Flat initial elevation field of the 5 by 5 scenario. -/
def flatElev25 : List ℚ := List.replicate 25 0

/-- Small configuration with a nonzero erosion coefficient and zero
threshold, used to exhibit threshold gating on a flat field. -/
def gateConfig : Config := ⟨3, 3, 1, 0, 1, 0, 0, 1, id, fun _ => 1⟩

/-- Degenerate one-node configuration used to instantiate per-step
statements at a concrete state. -/
def oneConfig : Config := ⟨1, 1, 1, 1, 0, 0, 1, 1, id, fun _ => 1⟩

/-! ### Helper lemmas about list access -/

theorem getD_replicate_of_lt {K : ℚ} {n m : ℕ} (h : m < n) :
    (List.replicate n K).getD m 0 = K := by
  simp [List.getD_eq_getElem?_getD, List.getElem?_replicate_of_lt h]

theorem getD_map_range {f : ℕ → ℚ} {n m : ℕ} (h : m < n) :
    (((List.range n).map f).getD m 0) = f m := by
  simp [List.getD_eq_getElem?_getD, List.getElem?_range h]

theorem getD_map_range_list {f : ℕ → List ℚ} {n m : ℕ} (h : m < n) :
    (((List.range n).map f).getD m []) = f m := by
  simp [List.getD_eq_getElem?_getD, List.getElem?_range h]

theorem idx_lt_of_row_col {i j nr nc : ℕ} (hi : i < nr) (hj : j < nc) :
    i * nc + j < nr * nc := by
  calc i * nc + j < i * nc + nc := by omega
  _ = (i + 1) * nc := by ring
  _ ≤ nr * nc := Nat.mul_le_mul_right nc hi

/-! ### The tridiagonal solve maps constant data to the constant solution -/

/-- Shape of the rows produced for the implicit diffusion system when
the old elevation line is constantly K: nonpositive off-diagonal
couplings, unit row sum, and K on the right-hand side. -/
def RowOK (K : ℚ) (row : TRow) : Prop :=
  row.a ≤ 0 ∧ row.c ≤ 0 ∧ row.b = 1 - row.a - row.c ∧ row.d = K

theorem fwdAux_const (K : ℚ) :
    ∀ (rows : List TRow) (cp dp : ℚ), (∀ row ∈ rows, RowOK K row) →
    (∀ row, rows.getLast? = some row → row.c = 0) →
    -1 < cp → cp ≤ 0 → dp = K * (1 + cp) →
    backSub (fwdAux cp dp rows) = List.replicate rows.length K := by
  intro rows
  induction rows with
  | nil => intro cp dp _ _ _ _ _; rfl
  | cons row rest ih =>
    intro cp dp hrows hlast hcp1 hcp0 hdp
    obtain ⟨ha, hc, hb, hd⟩ := hrows row (by simp)
    have hden : 0 < row.b - row.a * cp + row.c := by nlinarith
    have hdenpos : 0 < row.b - row.a * cp := by nlinarith
    have hdenne : row.b - row.a * cp ≠ 0 := ne_of_gt hdenpos
    have hcq0 : row.c / (row.b - row.a * cp) ≤ 0 := by
      rw [div_nonpos_iff]; right; exact ⟨hc, hdenpos.le⟩
    have hcq1 : (-1 : ℚ) < row.c / (row.b - row.a * cp) := by
      rw [lt_div_iff₀ hdenpos]; nlinarith
    have hdq : (row.d - row.a * dp) / (row.b - row.a * cp) =
        K * (1 + row.c / (row.b - row.a * cp)) := by
      rw [hd, hdp, div_eq_iff hdenne]
      have expand : K * (1 + row.c / (row.b - row.a * cp)) * (row.b - row.a * cp)
          = K * (row.b - row.a * cp) + K * row.c := by
        field_simp; ring
      rw [expand, hb]; ring
    have hunfold : fwdAux cp dp (row :: rest) =
        (row.c / (row.b - row.a * cp), (row.d - row.a * dp) / (row.b - row.a * cp)) ::
          fwdAux (row.c / (row.b - row.a * cp))
            ((row.d - row.a * dp) / (row.b - row.a * cp)) rest := rfl
    cases rest with
    | nil =>
      have hc0 : row.c = 0 := hlast row (by simp)
      rw [hunfold]
      simp only [fwdAux, backSub]
      rw [hdq, hc0]
      norm_num
    | cons row2 rest2 =>
      have hlast2 : ∀ q, (row2 :: rest2).getLast? = some q → q.c = 0 := fun q hq =>
        hlast q (by rwa [List.getLast?_cons_cons])
      have ihx := ih (row.c / (row.b - row.a * cp)) ((row.d - row.a * dp) / (row.b - row.a * cp))
        (fun q hq => hrows q (by simp [hq])) hlast2 hcq1 hcq0 hdq
      rw [hunfold]
      show ((row.d - row.a * dp) / (row.b - row.a * cp) -
          row.c / (row.b - row.a * cp) *
            (backSub (fwdAux (row.c / (row.b - row.a * cp))
              ((row.d - row.a * dp) / (row.b - row.a * cp)) (row2 :: rest2))).headD 0) ::
          backSub (fwdAux (row.c / (row.b - row.a * cp))
            ((row.d - row.a * dp) / (row.b - row.a * cp)) (row2 :: rest2)) =
        List.replicate (row :: row2 :: rest2).length K
      rw [ihx, hdq]
      have hhead : (List.replicate (row2 :: rest2).length K).headD 0 = K := by
        rw [List.length_cons, List.replicate_succ]; rfl
      rw [hhead]
      have hK : K * (1 + row.c / (row.b - row.a * cp)) -
          row.c / (row.b - row.a * cp) * K = K := by ring
      rw [hK]
      rfl

theorem triSolve_const (K : ℚ) (rows : List TRow)
    (hrows : ∀ row ∈ rows, RowOK K row)
    (hlast : ∀ row, rows.getLast? = some row → row.c = 0)
    (hfirst : ∀ row, rows.head? = some row → row.a = 0) :
    triSolve rows = List.replicate rows.length K := by
  cases rows with
  | nil => rfl
  | cons row rest =>
    have ha0 : row.a = 0 := hfirst row rfl
    have : triSolve (row :: rest) = backSub (fwdAux 0 K (row :: rest)) := by
      simp only [triSolve, fwdAux, ha0]
      norm_num
    rw [this]
    exact fwdAux_const K (row :: rest) 0 K hrows hlast (by norm_num) le_rfl (by ring)

theorem offDiag_nonpos (r : ℚ) (hr : 0 ≤ r) (o : Option BStatus) : offDiag r o ≤ 0 := by
  cases o with
  | none => simp [offDiag]
  | some ps =>
    by_cases hps : ps = closed
    · simp [offDiag, hps]
    · simp only [offDiag, if_neg hps]
      linarith

theorem mkRow_rowOK (K r : ℚ) (hr : 0 ≤ r) (prev next : Option BStatus) (s : BStatus) :
    RowOK K (mkRow r prev next s K) := by
  by_cases hs : s = core
  · exact ⟨by simp [mkRow, hs, offDiag_nonpos r hr],
      by simp [mkRow, hs, offDiag_nonpos r hr],
      by simp [mkRow, hs], by simp [mkRow, hs]⟩
  · refine ⟨by simp [mkRow, hs], by simp [mkRow, hs], ?_, by simp [mkRow, hs]⟩
    simp only [mkRow, if_neg hs]
    norm_num

theorem mkRows_rowOK (K r : ℚ) (hr : 0 ≤ r) :
    ∀ (line : List (BStatus × ℚ)) (prev : Option BStatus),
    (∀ p ∈ line, p.2 = K) → ∀ row ∈ mkRows r prev line, RowOK K row := by
  intro line
  induction line with
  | nil => intro _ _ row hrow; simp [mkRows] at hrow
  | cons p rest ih =>
    intro prev hK row hrow
    obtain ⟨s, zv⟩ := p
    have hz : zv = K := hK (s, zv) (by simp)
    simp only [mkRows, List.mem_cons] at hrow
    rcases hrow with hrow | hrow
    · subst hrow
      rw [hz]
      exact mkRow_rowOK K r hr prev (rest.head?.map Prod.fst) s
    · exact ih (some s) (fun q hq => hK q (by simp [hq])) row hrow

theorem mkRow_c_none (r : ℚ) (prev : Option BStatus) (s : BStatus) (zv : ℚ) :
    (mkRow r prev none s zv).c = 0 := by
  by_cases hs : s = core <;> simp [mkRow, hs, offDiag]

theorem mkRows_last_c (r : ℚ) :
    ∀ (line : List (BStatus × ℚ)) (prev : Option BStatus) (row : TRow),
    (mkRows r prev line).getLast? = some row → row.c = 0 := by
  intro line
  induction line with
  | nil => intro prev row h; simp [mkRows] at h
  | cons p rest ih =>
    intro prev row h
    obtain ⟨s, zv⟩ := p
    cases rest with
    | nil =>
      simp only [mkRows, List.getLast?_singleton, Option.some.injEq] at h
      subst h
      exact mkRow_c_none r prev s zv
    | cons p2 rest2 =>
      obtain ⟨s2, zv2⟩ := p2
      rw [show mkRows r prev ((s, zv) :: (s2, zv2) :: rest2) =
          mkRow r prev (((s2, zv2) :: rest2).head?.map Prod.fst) s zv ::
            mkRows r (some s) ((s2, zv2) :: rest2) from rfl] at h
      rw [show mkRows r (some s) ((s2, zv2) :: rest2) =
          mkRow r (some s) (rest2.head?.map Prod.fst) s2 zv2 ::
            mkRows r (some s2) rest2 from rfl] at h
      rw [List.getLast?_cons_cons] at h
      exact ih (some s) row (by
        rw [show mkRows r (some s) ((s2, zv2) :: rest2) =
            mkRow r (some s) (rest2.head?.map Prod.fst) s2 zv2 ::
              mkRows r (some s2) rest2 from rfl]
        exact h)

theorem mkRows_first_a (r : ℚ) (line : List (BStatus × ℚ)) (row : TRow)
    (h : (mkRows r none line).head? = some row) : row.a = 0 := by
  cases line with
  | nil => simp [mkRows] at h
  | cons p rest =>
    obtain ⟨s, zv⟩ := p
    simp only [mkRows, List.head?_cons, Option.some.injEq] at h
    subst h
    by_cases hs : s = core <;> simp [mkRow, hs, offDiag]

theorem mkRows_length (r : ℚ) :
    ∀ (line : List (BStatus × ℚ)) (prev : Option BStatus),
    (mkRows r prev line).length = line.length := by
  intro line
  induction line with
  | nil => intro _; rfl
  | cons p rest ih => intro prev; obtain ⟨s, zv⟩ := p; simp [mkRows, ih (some s)]

/-- Modelled from the spec: a constant line is a fixed point of the
implicit line solve (the diffusion flux of a flat field vanishes for
every boundary handling). -/
theorem lineSolve_const (K r : ℚ) (hr : 0 ≤ r) (line : List (BStatus × ℚ))
    (hK : ∀ p ∈ line, p.2 = K) :
    lineSolve r line = List.replicate line.length K := by
  have h1 := mkRows_rowOK K r hr line none hK
  have h2 := mkRows_last_c r line none
  have h3 := mkRows_first_a r line
  rw [lineSolve, triSolve_const K _ h1 h2 h3, mkRows_length]

theorem colLine_const (nr nc : ℕ) (st : ℕ → BStatus) (K : ℚ) (j : ℕ) (hj : j < nc) :
    ∀ p ∈ colLine nr nc st (List.replicate (nr * nc) K) j, p.2 = K := by
  intro p hp
  simp only [colLine, List.mem_map, List.mem_range] at hp
  obtain ⟨i, hi, hpi⟩ := hp
  rw [← hpi]
  exact getD_replicate_of_lt (idx_lt_of_row_col hi hj)

theorem rowLine_const (nr nc : ℕ) (st : ℕ → BStatus) (K : ℚ) (i : ℕ) (hi : i < nr) :
    ∀ p ∈ rowLine nc st (List.replicate (nr * nc) K) i, p.2 = K := by
  intro p hp
  simp only [rowLine, List.mem_map, List.mem_range] at hp
  obtain ⟨j, hj, hpj⟩ := hp
  rw [← hpj]
  exact getD_replicate_of_lt (idx_lt_of_row_col hi hj)

theorem colLine_length (nr nc : ℕ) (st : ℕ → BStatus) (z : List ℚ) (j : ℕ) :
    (colLine nr nc st z j).length = nr := by
  simp [colLine]

theorem rowLine_length (nc : ℕ) (st : ℕ → BStatus) (z : List ℚ) (i : ℕ) :
    (rowLine nc st z i).length = nc := by
  simp [rowLine]

theorem diffuseCols_const (nr nc : ℕ) (st : ℕ → BStatus) (r K : ℚ) (hr : 0 ≤ r) :
    diffuseCols nr nc st r (List.replicate (nr * nc) K) = List.replicate (nr * nc) K := by
  rw [List.eq_replicate_iff]
  constructor
  · simp [diffuseCols]
  · intro b hb
    simp only [diffuseCols, List.mem_map, List.mem_range] at hb
    obtain ⟨n, hn, hbn⟩ := hb
    have hnc : 0 < nc := by
      rcases Nat.eq_zero_or_pos nc with h | h
      · subst h; simp at hn
      · exact h
    have hj : n % nc < nc := Nat.mod_lt n hnc
    have hi : n / nc < nr := by
      rw [Nat.div_lt_iff_lt_mul hnc]
      exact hn
    rw [← hbn, getD_map_range_list hj,
      lineSolve_const K r hr _ (colLine_const nr nc st K (n % nc) hj),
      colLine_length]
    exact getD_replicate_of_lt hi

theorem diffuseRows_const (nr nc : ℕ) (st : ℕ → BStatus) (r K : ℚ) (hr : 0 ≤ r) :
    diffuseRows nr nc st r (List.replicate (nr * nc) K) = List.replicate (nr * nc) K := by
  rw [List.eq_replicate_iff]
  constructor
  · simp [diffuseRows]
  · intro b hb
    simp only [diffuseRows, List.mem_map, List.mem_range] at hb
    obtain ⟨n, hn, hbn⟩ := hb
    have hnc : 0 < nc := by
      rcases Nat.eq_zero_or_pos nc with h | h
      · subst h; simp at hn
      · exact h
    have hj : n % nc < nc := Nat.mod_lt n hnc
    have hi : n / nc < nr := by
      rw [Nat.div_lt_iff_lt_mul hnc]
      exact hn
    rw [← hbn, getD_map_range_list hi,
      lineSolve_const K r hr _ (rowLine_const nr nc st K (n / nc) hi),
      rowLine_length]
    exact getD_replicate_of_lt hj

theorem diffuse_const (nr nc : ℕ) (st : ℕ → BStatus) (r K : ℚ) (hr : 0 ≤ r) :
    diffuse nr nc st r (List.replicate (nr * nc) K) = List.replicate (nr * nc) K := by
  rw [diffuse, diffuseCols_const nr nc st r K hr, diffuseRows_const nr nc st r K hr]

/-! ### Pointwise behaviour of the uplift application -/

theorem elevOf_addCore (st : ℕ → BStatus) (u : ℚ) (z : List ℚ) (n : ℕ) (hn : n < z.length) :
    elevOf (addCore st u z) n = if st n = core then elevOf z n + u else elevOf z n := by
  unfold addCore elevOf
  exact getD_map_range hn

theorem addCore_length (st : ℕ → BStatus) (u : ℚ) (z : List ℚ) :
    (addCore st u z).length = z.length := by
  simp [addCore]

/-! ### The per-step sequence of the driver as a composition of phases -/

theorem stepSim_phases (cfg : Config) (st : ℕ → BStatus) (i : ℕ) (s : SimState) :
    stepSim cfg st i s =
      upliftPhase cfg st (recordEndPhase i (fluvialPhase cfg st
        (routingPhase cfg st (diffusionPhase cfg st (recordBeginPhase i s))))) := by
  by_cases h : 900 < i <;>
    simp [stepSim, upliftPhase, recordEndPhase, fluvialPhase, routingPhase,
      diffusionPhase, recordBeginPhase, h]

/-! ### Properties of the receiver relation -/

theorem mem_neighborList_lt {nr nc n m : ℕ} (h : m ∈ neighborList nr nc n) : m < nr * nc := by
  unfold neighborList at h
  simp only [List.mem_filterMap] at h
  obtain ⟨p, hp, hpm⟩ := h
  split_ifs at hpm with hcond
  obtain ⟨h1, h2, h3, h4⟩ := hcond
  simp only [Option.some.injEq] at hpm
  subst hpm
  exact idx_lt_of_row_col (by omega) (by omega)

theorem foldl_pickLower_mem (z : List ℚ) :
    ∀ (t : List ℕ) (h : ℕ), t.foldl (pickLower z) h ∈ h :: t := by
  intro t
  induction t with
  | nil => intro h; simp
  | cons a t ih =>
    intro h
    rw [List.foldl_cons]
    have step : pickLower z h a = h ∨ pickLower z h a = a := by
      unfold pickLower
      split_ifs <;> simp
    have hmem := ih (pickLower z h a)
    rcases List.mem_cons.mp hmem with h1 | h1
    · rw [h1]
      rcases step with hs | hs <;> rw [hs] <;> simp
    · simp [h1]

theorem receiver_cases (nr nc : ℕ) (st : ℕ → BStatus) (z : List ℚ) (n : ℕ) :
    receiver nr nc st z n = n ∨
      (receiver nr nc st z n ∈ neighborList nr nc n ∧
        st (receiver nr nc st z n) ≠ closed ∧
        elevOf z (receiver nr nc st z n) < elevOf z n) := by
  unfold receiver
  by_cases hst : st n = core
  · rw [if_pos hst]
    rcases hfl : (neighborList nr nc n).filter
        (fun m => decide (st m ≠ closed ∧ elevOf z m < elevOf z n)) with _ | ⟨h, t⟩
    · left; rfl
    · right
      have hmem : t.foldl (pickLower z) h ∈ h :: t := foldl_pickLower_mem z t h
      rw [← hfl] at hmem
      have hprop := List.of_mem_filter hmem
      have hmem2 := List.mem_of_mem_filter hmem
      simp only [decide_eq_true_eq] at hprop
      exact ⟨hmem2, hprop.1, hprop.2⟩
  · left; rw [if_neg hst]

theorem receiver_descent {nr nc : ℕ} {st : ℕ → BStatus} {z : List ℚ} {n : ℕ}
    (h : receiver nr nc st z n ≠ n) :
    elevOf z (receiver nr nc st z n) < elevOf z n ∧ st (receiver nr nc st z n) ≠ closed ∧
      receiver nr nc st z n < nr * nc := by
  rcases receiver_cases nr nc st z n with hc | hc
  · exact absurd hc h
  · exact ⟨hc.2.2, hc.2.1, mem_neighborList_lt hc.1⟩

theorem elevOf_receiver_le (nr nc : ℕ) (st : ℕ → BStatus) (z : List ℚ) (n : ℕ) :
    elevOf z (receiver nr nc st z n) ≤ elevOf z n := by
  by_cases h : receiver nr nc st z n = n
  · rw [h]
  · exact le_of_lt (receiver_descent h).1

theorem elevOf_receiver_iterate_le (nr nc : ℕ) (st : ℕ → BStatus) (z : List ℚ) :
    ∀ (k : ℕ) (n : ℕ), elevOf z ((receiver nr nc st z)^[k] n) ≤ elevOf z n := by
  intro k
  induction k with
  | zero => intro n; rfl
  | succ k ih =>
    intro n
    rw [Function.iterate_succ_apply]
    exact le_trans (ih (receiver nr nc st z n)) (elevOf_receiver_le nr nc st z n)

theorem receiver_reaches_root (nr nc : ℕ) (st : ℕ → BStatus) (z : List ℚ) :
    ∀ n, ∃ k, (receiver nr nc st z)^[k + 1] n = (receiver nr nc st z)^[k] n := by
  set recv := receiver nr nc st z with hrecv
  set mu := fun n => ((Finset.range (nr * nc)).filter
    (fun m => elevOf z m < elevOf z n)).card with hmu
  suffices H : ∀ N n, mu n ≤ N → ∃ k, recv^[k + 1] n = recv^[k] n by
    exact fun n => H (mu n) n le_rfl
  intro N
  induction N with
  | zero =>
    intro n hn
    by_cases h : recv n = n
    · exact ⟨0, by simpa using h⟩
    · obtain ⟨hlt, _, hb⟩ := receiver_descent (hrecv ▸ h)
      exfalso
      have hmem : recv n ∈ (Finset.range (nr * nc)).filter
          (fun m => elevOf z m < elevOf z n) := by
        simp only [Finset.mem_filter, Finset.mem_range]
        exact ⟨hb, hlt⟩
      have hpos : 0 < mu n := by
        simp only [hmu]
        exact Finset.card_pos.mpr ⟨recv n, hmem⟩
      omega
  | succ N ih =>
    intro n hn
    by_cases h : recv n = n
    · exact ⟨0, by simpa using h⟩
    · obtain ⟨hlt, _, hb⟩ := receiver_descent (hrecv ▸ h)
      have hsub : (Finset.range (nr * nc)).filter (fun m => elevOf z m < elevOf z (recv n)) ⊂
          (Finset.range (nr * nc)).filter (fun m => elevOf z m < elevOf z n) := by
        constructor
        · intro m hm
          simp only [Finset.mem_filter, Finset.mem_range] at hm ⊢
          exact ⟨hm.1, lt_trans hm.2 hlt⟩
        · intro hcontra
          have hmem : recv n ∈ (Finset.range (nr * nc)).filter
              (fun m => elevOf z m < elevOf z n) := by
            simp only [Finset.mem_filter, Finset.mem_range]
            exact ⟨hb, hlt⟩
          have := hcontra hmem
          simp only [Finset.mem_filter, Finset.mem_range] at this
          exact lt_irrefl _ this.2
      have hcard : mu (recv n) < mu n := by
        simp only [hmu]
        exact Finset.card_lt_card hsub
      obtain ⟨k, hk⟩ := ih (recv n) (by omega)
      refine ⟨k + 1, ?_⟩
      rw [Function.iterate_succ_apply, Function.iterate_succ_apply]
      exact hk

theorem receiver_no_cycle (nr nc : ℕ) (st : ℕ → BStatus) (z : List ℚ) :
    ∀ n k, 0 < k → (receiver nr nc st z)^[k] n = n → receiver nr nc st z n = n := by
  intro n k hk hcyc
  by_contra h
  obtain ⟨hlt, _, _⟩ := receiver_descent h
  obtain ⟨j, rfl⟩ : ∃ j, k = j + 1 := ⟨k - 1, by omega⟩
  have : elevOf z ((receiver nr nc st z)^[j + 1] n) ≤ elevOf z (receiver nr nc st z n) := by
    rw [Function.iterate_succ_apply]
    exact elevOf_receiver_iterate_le nr nc st z j (receiver nr nc st z n)
  rw [hcyc] at this
  exact absurd (lt_of_le_of_lt this hlt) (lt_irrefl _)

/-! ### Conservation of drainage area through the accumulation pass -/

theorem getD_set_ne (A : List ℚ) (i n : ℕ) (v : ℚ) (h : i ≠ n) :
    (A.set i v).getD n 0 = A.getD n 0 := by
  simp [List.getD_eq_getElem?_getD, List.getElem?_set_ne h]

theorem getD_set_self (A : List ℚ) (i : ℕ) (v : ℚ) (h : i < A.length) :
    (A.set i v).getD i 0 = v := by
  simp [List.getD_eq_getElem?_getD, List.getElem?_set_self h]

theorem sum_map_getD_set_of_not_mem (l : List ℕ) (A : List ℚ) (r : ℕ) (v : ℚ)
    (h : r ∉ l) :
    (l.map (fun x => (A.set r v).getD x 0)).sum = (l.map (fun x => A.getD x 0)).sum := by
  induction l with
  | nil => rfl
  | cons a l ih =>
    simp only [List.mem_cons, not_or] at h
    simp only [List.map_cons, List.sum_cons, ih h.2, getD_set_ne A r a v h.1]

theorem sum_map_getD_set_of_mem (l : List ℕ) (A : List ℚ) (r : ℕ) (v : ℚ)
    (hnd : l.Nodup) (hmem : r ∈ l) (hlen : r < A.length) :
    (l.map (fun x => (A.set r v).getD x 0)).sum =
      (l.map (fun x => A.getD x 0)).sum + v - A.getD r 0 := by
  induction l with
  | nil => simp at hmem
  | cons a l ih =>
    rcases List.mem_cons.mp hmem with heq | hmem2
    · subst heq
      have hnotin : r ∉ l := (List.nodup_cons.mp hnd).1
      simp only [List.map_cons, List.sum_cons, getD_set_self A r v hlen,
        sum_map_getD_set_of_not_mem l A r v hnotin]
      ring
    · have hne : r ≠ a := by
        rintro rfl
        exact (List.nodup_cons.mp hnd).1 hmem2
      simp only [List.map_cons, List.sum_cons, getD_set_ne A r a v hne,
        ih (List.nodup_cons.mp hnd).2 hmem2]
      ring

theorem outletSum_set_outlet (recv : ℕ → ℕ) (N : ℕ) (A : List ℚ) (r : ℕ) (v : ℚ)
    (hr : recv r = r) (hrN : r < N) (hlen : r < A.length) :
    outletSum recv N (A.set r v) = outletSum recv N A + v - A.getD r 0 := by
  apply sum_map_getD_set_of_mem
  · exact (List.nodup_range N).filter _
  · simp [List.mem_filter, List.mem_range, hrN, hr]
  · exact hlen

theorem outletSum_set_non_outlet (recv : ℕ → ℕ) (N : ℕ) (A : List ℚ) (r : ℕ) (v : ℚ)
    (hr : recv r ≠ r) :
    outletSum recv N (A.set r v) = outletSum recv N A := by
  apply sum_map_getD_set_of_not_mem
  intro hmem
  rw [List.mem_filter] at hmem
  exact hr (by simpa using hmem.2)

theorem accumArea_outletSum (recv : ℕ → ℕ) (N : ℕ) (z : List ℚ) :
    ∀ (L : List ℕ) (A : List ℚ), A.length = N →
    L.Nodup →
    L.Pairwise (fun a b => elevOf z b ≤ elevOf z a) →
    (∀ x ∈ L, recv x = x ∨ (recv x ∈ L ∧ elevOf z (recv x) < elevOf z x ∧ recv x < N)) →
    outletSum recv N (accumArea recv L A) =
      outletSum recv N A +
        ((L.filter (fun x => decide (recv x ≠ x))).map (fun x => A.getD x 0)).sum := by
  intro L
  induction L with
  | nil => intro A _ _ _ _; simp [accumArea]
  | cons m L ih =>
    intro A hlen hnd hpw hrecv
    have hndL : L.Nodup := (List.nodup_cons.mp hnd).2
    have hpwL : L.Pairwise (fun a b => elevOf z b ≤ elevOf z a) := hpw.of_cons
    have hle : ∀ x ∈ L, elevOf z x ≤ elevOf z m := by
      intro x hx
      exact (List.pairwise_cons.mp hpw).1 x hx
    have hrecvL : ∀ x ∈ L, recv x = x ∨
        (recv x ∈ L ∧ elevOf z (recv x) < elevOf z x ∧ recv x < N) := by
      intro x hx
      rcases hrecv x (List.mem_cons_of_mem m hx) with h | ⟨hmem, hlt, hN⟩
      · exact Or.inl h
      · refine Or.inr ⟨?_, hlt, hN⟩
        rcases List.mem_cons.mp hmem with heq | hmem2
        · exfalso
          have := hle x hx
          rw [heq] at hlt
          exact absurd (lt_of_lt_of_le hlt this) (lt_irrefl _)
        · exact hmem2
    by_cases hm : recv m = m
    · rw [show accumArea recv (m :: L) A = accumArea recv L A from by
        rw [accumArea, if_pos hm]]
      rw [ih A hlen hndL hpwL hrecvL]
      congr 2
      rw [List.filter_cons]
      simp [hm]
    · rcases hrecv m (List.mem_cons_self m L) with h | ⟨hmem, hlt, hN⟩
      · exact absurd h hm
      have hrmem : recv m ∈ L := by
        rcases List.mem_cons.mp hmem with heq | h2
        · exact absurd heq hm
        · exact h2
      have hrlen : recv m < A.length := by omega
      rw [show accumArea recv (m :: L) A =
          accumArea recv L (A.set (recv m) (A.getD (recv m) 0 + A.getD m 0)) from by
        rw [accumArea, if_neg hm]]
      rw [ih (A.set (recv m) (A.getD (recv m) 0 + A.getD m 0)) (by simp [hlen]) hndL hpwL
        hrecvL]
      have hfc : (m :: L).filter (fun x => decide (recv x ≠ x)) =
          m :: L.filter (fun x => decide (recv x ≠ x)) := by
        rw [List.filter_cons]
        simp [hm]
      rw [hfc, List.map_cons, List.sum_cons]
      by_cases hro : recv (recv m) = recv m
      · rw [outletSum_set_outlet recv N A (recv m) _ hro hN hrlen]
        rw [sum_map_getD_set_of_not_mem _ A (recv m) _ (by
          intro hmemf
          rw [List.mem_filter] at hmemf
          exact (by simpa using hmemf.2 : recv (recv m) ≠ recv m) hro)]
        ring
      · rw [outletSum_set_non_outlet recv N A (recv m) _ hro]
        rw [sum_map_getD_set_of_mem _ A (recv m) _ (hndL.filter _) (by
          rw [List.mem_filter]
          exact ⟨hrmem, by simpa using hro⟩) hrlen]
        ring

theorem sum_map_filter (l : List ℕ) (R : ℕ → Bool) (f : ℕ → ℚ) :
    ((l.filter R).map f).sum = (l.map (fun x => if R x then f x else 0)).sum := by
  induction l with
  | nil => rfl
  | cons a l ih =>
    rw [List.filter_cons]
    by_cases h : R a
    · simp only [h, if_true, List.map_cons, List.sum_cons, ih]
    · simp only [h, if_false, List.map_cons, List.sum_cons, ih, Bool.false_eq_true, zero_add]

theorem sum_map_add_distrib (l : List ℕ) (f g : ℕ → ℚ) :
    (l.map (fun x => f x + g x)).sum = (l.map f).sum + (l.map g).sum := by
  induction l with
  | nil => simp
  | cons a l ih => simp only [List.map_cons, List.sum_cons, ih]; ring

theorem receiver_self_of_not_core (nr nc : ℕ) (st : ℕ → BStatus) (z : List ℚ) (n : ℕ)
    (h : st n ≠ core) : receiver nr nc st z n = n := by
  rw [receiver, if_neg h]

theorem ordRel_total (z : List ℚ) : ∀ a b : ℕ, ordRel z a b ∨ ordRel z b a := by
  intro a b
  unfold ordRel
  rcases lt_trichotomy (elevOf z a) (elevOf z b) with h | h | h
  · exact Or.inr (Or.inl h)
  · rcases le_total a b with hab | hab
    · exact Or.inl (Or.inr ⟨h.symm, hab⟩)
    · exact Or.inr (Or.inr ⟨h, hab⟩)
  · exact Or.inl (Or.inl h)

theorem ordRel_trans (z : List ℚ) : ∀ a b c : ℕ, ordRel z a b → ordRel z b c → ordRel z a c := by
  intro a b c hab hbc
  unfold ordRel at hab hbc ⊢
  rcases hab with h1 | ⟨h1, h1b⟩ <;> rcases hbc with h2 | ⟨h2, h2b⟩
  · exact Or.inl (lt_trans h2 h1)
  · exact Or.inl (h2 ▸ h1)
  · exact Or.inl (h1 ▸ h2)
  · exact Or.inr ⟨h2.trans h1, h1b.trans h2b⟩

theorem procList_perm (nr nc : ℕ) (st : ℕ → BStatus) (z : List ℚ) :
    List.Perm (procList nr nc st z)
      ((List.range (nr * nc)).filter (fun n => decide (st n ≠ closed))) :=
  List.perm_insertionSort _ _

theorem procList_nodup (nr nc : ℕ) (st : ℕ → BStatus) (z : List ℚ) :
    (procList nr nc st z).Nodup :=
  (procList_perm nr nc st z).nodup_iff.mpr ((List.nodup_range (nr * nc)).filter _)

theorem procList_sorted (nr nc : ℕ) (st : ℕ → BStatus) (z : List ℚ) :
    (procList nr nc st z).Pairwise (ordRel z) := by
  haveI : IsTotal ℕ (ordRel z) := ⟨ordRel_total z⟩
  haveI : IsTrans ℕ (ordRel z) := ⟨ordRel_trans z⟩
  exact List.sorted_insertionSort (ordRel z) _

theorem mem_procList (nr nc : ℕ) (st : ℕ → BStatus) (z : List ℚ) (x : ℕ) :
    x ∈ procList nr nc st z ↔ x < nr * nc ∧ st x ≠ closed := by
  rw [(procList_perm nr nc st z).mem_iff]
  simp [List.mem_filter, List.mem_range]

theorem initArea_length (nr nc : ℕ) (st : ℕ → BStatus) (dx : ℚ) :
    (initArea nr nc st dx).length = nr * nc := by
  simp [initArea]

theorem initArea_getD (nr nc : ℕ) (st : ℕ → BStatus) (dx : ℚ) (x : ℕ) (hx : x < nr * nc) :
    (initArea nr nc st dx).getD x 0 = if st x = closed then 0 else dx * dx := by
  unfold initArea
  exact getD_map_range hx

/-- Modelled from the spec: outlet-area conservation (spec section 8).
The drainage area accumulated at outlet nodes is the total domain
area, the cell area of every non-CLOSED node counted exactly once. -/
theorem drainage_outlet_conservation (nr nc : ℕ) (st : ℕ → BStatus) (dx : ℚ) (z : List ℚ) :
    outletSum (receiver nr nc st z) (nr * nc) (drainage nr nc st dx z) =
      (((List.range (nr * nc)).filter (fun n => decide (st n ≠ closed))).map
        (fun _ => dx * dx)).sum := by
  have hpw : (procList nr nc st z).Pairwise (fun a b => elevOf z b ≤ elevOf z a) :=
    (procList_sorted nr nc st z).imp (by
      intro a b hab
      rcases hab with h | ⟨h, _⟩
      · exact le_of_lt h
      · exact le_of_eq h)
  have hrecv : ∀ x ∈ procList nr nc st z, receiver nr nc st z x = x ∨
      (receiver nr nc st z x ∈ procList nr nc st z ∧
        elevOf z (receiver nr nc st z x) < elevOf z x ∧
        receiver nr nc st z x < nr * nc) := by
    intro x _
    rcases receiver_cases nr nc st z x with h | ⟨hmem, hcl, hlt⟩
    · exact Or.inl h
    · have hN : receiver nr nc st z x < nr * nc := mem_neighborList_lt hmem
      exact Or.inr ⟨(mem_procList nr nc st z _).mpr ⟨hN, hcl⟩, hlt, hN⟩
  have hinv := accumArea_outletSum (receiver nr nc st z) (nr * nc) z
    (procList nr nc st z) (initArea nr nc st dx) (initArea_length nr nc st dx)
    (procList_nodup nr nc st z) hpw hrecv
  rw [drainage, hinv]
  have hpermQ : List.Perm
      (((procList nr nc st z).filter
        (fun x => decide (receiver nr nc st z x ≠ x))).map
          (fun x => (initArea nr nc st dx).getD x 0))
      ((((List.range (nr * nc)).filter (fun n => decide (st n ≠ closed))).filter
        (fun x => decide (receiver nr nc st z x ≠ x))).map
          (fun x => (initArea nr nc st dx).getD x 0)) :=
    ((procList_perm nr nc st z).filter _).map _
  rw [hpermQ.sum_eq, List.filter_filter]
  rw [outletSum, sum_map_filter, sum_map_filter, ← sum_map_add_distrib, sum_map_filter]
  apply congrArg List.sum
  apply List.map_congr_left
  intro x hx
  have hxN : x < nr * nc := List.mem_range.mp hx
  rw [initArea_getD nr nc st dx x hxN]
  by_cases hcl : st x = closed
  · have hself : receiver nr nc st z x = x :=
      receiver_self_of_not_core nr nc st z x (by rw [hcl]; decide)
    simp [hcl, hself]
  · by_cases hself : receiver nr nc st z x = x
    · simp [hcl, hself]
    · simp [hcl, hself]

/-! ### The fluvial sweep: untouched nodes and the per-node decision -/

theorem erodeUpdate_getD_ne (Ksp thr dt : ℚ) (pwA : ℚ → ℚ) (plen : ℕ → ℚ)
    (st : ℕ → BStatus) (recv : ℕ → ℕ) (A : List ℚ) (m : ℕ) (z : List ℚ) (n : ℕ)
    (h : n ≠ m) :
    (erodeUpdate Ksp thr dt pwA plen st recv A m z).getD n 0 = z.getD n 0 := by
  unfold erodeUpdate
  split_ifs <;> first
    | rfl
    | exact getD_set_ne z m n _ (Ne.symm h)

theorem erodeUpdate_length (Ksp thr dt : ℚ) (pwA : ℚ → ℚ) (plen : ℕ → ℚ)
    (st : ℕ → BStatus) (recv : ℕ → ℕ) (A : List ℚ) (m : ℕ) (z : List ℚ) :
    (erodeUpdate Ksp thr dt pwA plen st recv A m z).length = z.length := by
  unfold erodeUpdate
  split_ifs <;> simp

theorem erodeSweep_getD_not_mem (Ksp thr dt : ℚ) (pwA : ℚ → ℚ) (plen : ℕ → ℚ)
    (st : ℕ → BStatus) (recv : ℕ → ℕ) (A : List ℚ) :
    ∀ (L : List ℕ) (z : List ℚ) (m : ℕ), m ∉ L →
    (erodeSweep Ksp thr dt pwA plen st recv A L z).getD m 0 = z.getD m 0 := by
  intro L
  induction L with
  | nil => intro z m _; rfl
  | cons a L ih =>
    intro z m hm
    simp only [List.mem_cons, not_or] at hm
    rw [show erodeSweep Ksp thr dt pwA plen st recv A (a :: L) z =
        erodeSweep Ksp thr dt pwA plen st recv A L
          (erodeUpdate Ksp thr dt pwA plen st recv A a z) from rfl]
    rw [ih _ m hm.2]
    exact erodeUpdate_getD_ne Ksp thr dt pwA plen st recv A a z m hm.1

theorem erodeSweep_length (Ksp thr dt : ℚ) (pwA : ℚ → ℚ) (plen : ℕ → ℚ)
    (st : ℕ → BStatus) (recv : ℕ → ℕ) (A : List ℚ) :
    ∀ (L : List ℕ) (z : List ℚ),
    (erodeSweep Ksp thr dt pwA plen st recv A L z).length = z.length := by
  intro L
  induction L with
  | nil => intro z; rfl
  | cons a L ih =>
    intro z
    rw [show erodeSweep Ksp thr dt pwA plen st recv A (a :: L) z =
        erodeSweep Ksp thr dt pwA plen st recv A L
          (erodeUpdate Ksp thr dt pwA plen st recv A a z) from rfl]
    rw [ih, erodeUpdate_length]

theorem erodeSweep_spec (Ksp thr dt : ℚ) (pwA : ℚ → ℚ) (plen : ℕ → ℚ)
    (st : ℕ → BStatus) (recv : ℕ → ℕ) (A : List ℚ) (e0 : ℕ → ℚ)
    (hrecv : ∀ x, recv x = x ∨ e0 (recv x) < e0 x) :
    ∀ (L : List ℕ) (z : List ℚ), L.Nodup →
    L.Pairwise (fun a b => e0 a ≤ e0 b) →
    (∀ x ∈ L, x < z.length) →
    ∀ m ∈ L,
      (erodeSweep Ksp thr dt pwA plen st recv A L z).getD m 0 =
        (if st m = core ∧ recv m ≠ m then
          (if Ksp * pwA (A.getD m 0) *
              max 0 ((z.getD m 0 -
                (erodeSweep Ksp thr dt pwA plen st recv A L z).getD (recv m) 0) /
                  plen m) ≤ thr
           then z.getD m 0
           else (z.getD m 0 + (dt * Ksp * pwA (A.getD m 0) / plen m) *
              (erodeSweep Ksp thr dt pwA plen st recv A L z).getD (recv m) 0) /
                (1 + dt * Ksp * pwA (A.getD m 0) / plen m))
         else z.getD m 0) := by
  intro L
  induction L with
  | nil => intro z _ _ _ m hm; simp at hm
  | cons m0 L ih =>
    intro z hnd hpw hbound m hm
    have hm0L : m0 ∉ L := (List.nodup_cons.mp hnd).1
    have hsweep : erodeSweep Ksp thr dt pwA plen st recv A (m0 :: L) z =
        erodeSweep Ksp thr dt pwA plen st recv A L
          (erodeUpdate Ksp thr dt pwA plen st recv A m0 z) := rfl
    rcases List.mem_cons.mp hm with rfl | hmL
    · -- the head node: its entry is decided by its own update and never touched again
      have hout_m : (erodeSweep Ksp thr dt pwA plen st recv A (m :: L) z).getD m 0 =
          (erodeUpdate Ksp thr dt pwA plen st recv A m z).getD m 0 := by
        rw [hsweep]
        exact erodeSweep_getD_not_mem Ksp thr dt pwA plen st recv A L _ m hm0L
      by_cases hc : st m = core ∧ recv m ≠ m
      · have hrlt : e0 (recv m) < e0 m := by
          rcases hrecv m with h | h
          · exact absurd h hc.2
          · exact h
        have hrnot : recv m ∉ m :: L := by
          intro hmem
          rcases List.mem_cons.mp hmem with heq | hmem2
          · rw [heq] at hrlt; exact absurd hrlt (lt_irrefl _)
          · have := (List.pairwise_cons.mp hpw).1 _ hmem2
            exact absurd (lt_of_lt_of_le hrlt this) (lt_irrefl _)
        have hout_r : (erodeSweep Ksp thr dt pwA plen st recv A (m :: L) z).getD (recv m) 0 =
            z.getD (recv m) 0 := by
          rw [hsweep]
          rw [erodeSweep_getD_not_mem Ksp thr dt pwA plen st recv A L _ (recv m)
            (fun hx => hrnot (List.mem_cons_of_mem m hx))]
          exact erodeUpdate_getD_ne Ksp thr dt pwA plen st recv A m z (recv m) hc.2
        rw [hout_m, hout_r]
        rw [show erodeUpdate Ksp thr dt pwA plen st recv A m z =
            (if Ksp * pwA (A.getD m 0) *
                max 0 ((elevOf z m - elevOf z (recv m)) / plen m) ≤ thr then z
             else z.set m ((elevOf z m + (dt * Ksp * pwA (A.getD m 0) / plen m) *
                elevOf z (recv m)) / (1 + dt * Ksp * pwA (A.getD m 0) / plen m)))
          from by rw [erodeUpdate, if_pos hc]]
        rw [if_pos hc]
        unfold elevOf
        split_ifs with hgate
        all_goals first
          | rfl
          | exact getD_set_self z m _ (hbound m (List.mem_cons_self m L))
      · have hupd : erodeUpdate Ksp thr dt pwA plen st recv A m z = z := by
          rw [erodeUpdate, if_neg hc]
        rw [hout_m, hupd, if_neg hc]
    · -- a later node: apply the induction hypothesis over the updated field
      have hm0ne : m ≠ m0 := fun h => hm0L (h ▸ hmL)
      have ihx := ih (erodeUpdate Ksp thr dt pwA plen st recv A m0 z)
        (List.nodup_cons.mp hnd).2 hpw.of_cons
        (fun x hx => by
          rw [erodeUpdate_length]
          exact hbound x (List.mem_cons_of_mem m0 hx))
        m hmL
      rw [hsweep]
      rw [ihx]
      rw [erodeUpdate_getD_ne Ksp thr dt pwA plen st recv A m0 z m hm0ne]

/-! ### Field lengths along the driver trajectory -/

theorem diffuse_length (nr nc : ℕ) (st : ℕ → BStatus) (r : ℚ) (z : List ℚ) :
    (diffuse nr nc st r z).length = nr * nc := by
  simp [diffuse, diffuseRows]

theorem accumArea_length (recv : ℕ → ℕ) :
    ∀ (L : List ℕ) (A : List ℚ), (accumArea recv L A).length = A.length := by
  intro L
  induction L with
  | nil => intro A; rfl
  | cons m L ih =>
    intro A
    rw [accumArea]
    split_ifs
    · exact ih A
    · rw [ih]; simp

theorem drainage_length (nr nc : ℕ) (st : ℕ → BStatus) (dx : ℚ) (z : List ℚ) :
    (drainage nr nc st dx z).length = nr * nc := by
  rw [drainage, accumArea_length, initArea_length]

theorem fluvialSolve_length (cfg : Config) (st : ℕ → BStatus) (z : List ℚ) :
    (fluvialSolve cfg st z).length = z.length :=
  erodeSweep_length _ _ _ _ _ _ _ _ _ _

theorem elevOf_addList (a b : List ℚ) (n : ℕ) (ha : n < a.length) (hb : n < b.length) :
    elevOf (addList a b) n = elevOf a n + elevOf b n := by
  unfold elevOf addList
  simp only [List.getD_eq_getElem?_getD, List.getElem?_zipWith,
    List.getElem?_eq_getElem ha, List.getElem?_eq_getElem hb]
  rfl

theorem elevOf_subList (a b : List ℚ) (n : ℕ) (ha : n < a.length) (hb : n < b.length) :
    elevOf (subList a b) n = elevOf a n - elevOf b n := by
  unfold elevOf subList
  simp only [List.getD_eq_getElem?_getD, List.getElem?_zipWith,
    List.getElem?_eq_getElem ha, List.getElem?_eq_getElem hb]
  rfl

theorem elevOf_out (l : List ℚ) (n : ℕ) (h : l.length ≤ n) : elevOf l n = 0 := by
  unfold elevOf
  exact List.getD_eq_default l 0 h

theorem elevOf_replicate_zero (k n : ℕ) : elevOf (List.replicate k (0 : ℚ)) n = 0 := by
  rcases lt_or_ge n k with h | h
  · exact getD_replicate_of_lt h
  · exact elevOf_out _ n (by simpa using h)

theorem simStates_lengths (cfg : Config) (st : ℕ → BStatus) (z0 : List ℚ)
    (hz : z0.length = cfg.nr * cfg.nc) :
    ∀ i, (simStates cfg st z0 i).elev.length = cfg.nr * cfg.nc ∧
      (simStates cfg st z0 i).eroDep.length = cfg.nr * cfg.nc ∧
      (simStates cfg st z0 i).tEroDep.length = cfg.nr * cfg.nc := by
  intro i
  induction i with
  | zero => exact ⟨hz, by simp [simStates, initState, hz], by simp [simStates, initState, hz]⟩
  | succ i ih =>
    obtain ⟨he, hed, hte⟩ := ih
    have hz2 : (fluvialSolve cfg st
        (diffuse cfg.nr cfg.nc st (rcoef cfg) (simStates cfg st z0 i).elev)).length =
        cfg.nr * cfg.nc := by
      rw [fluvialSolve_length, diffuse_length]
    refine ⟨?_, ?_, ?_⟩
    · show (stepSim cfg st i (simStates cfg st z0 i)).elev.length = _
      simp only [stepSim]
      rw [addCore_length]
      exact hz2
    · show (stepSim cfg st i (simStates cfg st z0 i)).eroDep.length = _
      simp only [stepSim]
      split_ifs with h
      · simp only [subList, List.length_zipWith]
        rw [he, hz2]
        simp
      · exact hed
    · show (stepSim cfg st i (simStates cfg st z0 i)).tEroDep.length = _
      simp only [stepSim]
      split_ifs with h
      · simp only [addList, subList, List.length_zipWith]
        rw [hte, he, hz2]
        simp
      · exact hte

/-! ### The trailing-window accumulator along the driver trajectory -/

theorem tEroDep_accum (cfg : Config) (st : ℕ → BStatus) (z0 : List ℚ)
    (hz : z0.length = cfg.nr * cfg.nc) :
    ∀ i n, elevOf (simStates cfg st z0 i).tEroDep n =
      ∑ j in (Finset.range i).filter (fun j => 900 < j), stepDrop cfg st z0 j n := by
  intro i
  induction i with
  | zero =>
    intro n
    simp only [simStates, initState]
    rw [elevOf_replicate_zero]
    simp
  | succ i ih =>
    intro n
    have hconv : ∀ k, ∑ j in (Finset.range k).filter (fun j => 900 < j),
        stepDrop cfg st z0 j n =
        ∑ j in Finset.range k, if 900 < j then stepDrop cfg st z0 j n else 0 := by
      intro k
      rw [Finset.sum_filter]
    rw [hconv, Finset.sum_range_succ, ← hconv, ← ih n]
    obtain ⟨he, hed, hte⟩ := simStates_lengths cfg st z0 hz i
    have hz2 : (fluvialSolve cfg st
        (diffuse cfg.nr cfg.nc st (rcoef cfg) (simStates cfg st z0 i).elev)).length =
        cfg.nr * cfg.nc := by
      rw [fluvialSolve_length, diffuse_length]
    show elevOf (stepSim cfg st i (simStates cfg st z0 i)).tEroDep n = _
    simp only [stepSim]
    split_ifs with h
    · rcases lt_or_ge n (cfg.nr * cfg.nc) with hn | hn
      · rw [elevOf_addList _ _ n (by rw [hte]; exact hn)
          (by simp only [subList, List.length_zipWith]; rw [he, hz2]; simpa using hn)]
        rw [elevOf_subList _ _ n (by rw [he]; exact hn) (by rw [hz2]; exact hn)]
        have hdrop : stepDrop cfg st z0 i n =
            elevOf (simStates cfg st z0 i).elev n -
              elevOf (fluvialSolve cfg st
                (diffuse cfg.nr cfg.nc st (rcoef cfg) (simStates cfg st z0 i).elev)) n := rfl
        rw [hdrop]
      · have hpre : (preElev cfg st z0 i).length ≤ n := by
          show (simStates cfg st z0 i).elev.length ≤ n
          rw [he]; exact hn
        have hmid : (midElev cfg st z0 i).length ≤ n := by
          show (fluvialSolve cfg st
            (diffuse cfg.nr cfg.nc st (rcoef cfg) (preElev cfg st z0 i))).length ≤ n
          rw [fluvialSolve_length, diffuse_length]; exact hn
        have hdrop0 : stepDrop cfg st z0 i n = 0 := by
          unfold stepDrop
          rw [elevOf_out _ n hpre, elevOf_out _ n hmid]
          ring
        rw [elevOf_out _ n (by
          simp only [addList, subList, List.length_zipWith]
          rw [hte, he, hz2]
          simpa using hn)]
        rw [elevOf_out _ n (by rw [hte]; exact hn), hdrop0]
        ring
    · simp

theorem runSim_tEroDep (cfg : Config) (st : ℕ → BStatus) (nt : ℕ) (z0 : List ℚ) :
    (runSim cfg st nt z0).tEroDep =
      (simStates cfg st z0 (nt + 1)).tEroDep.map (· * (1 / 1000)) := rfl

theorem elevOf_map_mul (l : List ℚ) (c : ℚ) (n : ℕ) :
    elevOf (l.map (fun x => x * c)) n = elevOf l n * c := by
  unfold elevOf
  simp only [List.getD_eq_getElem?_getD, List.getElem?_map]
  cases h : l[n]? with
  | none => simp
  | some a => simp

set_option maxRecDepth 100000

/-! ### The claims -/

/-- C1 (counterexample): the per-step sequence claimed by the
specification (flow routing first, on pre-diffusion elevation, then
diffusion, then fluvial erosion with the pre-diffusion drainage areas)
disagrees with the source driver, which diffuses first (line 139) and
routes flow afterwards (line 140): on the concrete field cexElev the
drainage_area field after one step differs between the two orders at
node 1. -/
theorem claim1_route_first_cex :
    (stepSim cexConfig (ridgeStatus 5 5) 0 cexState).area.getD 1 0 ≠
      (stepClaim cexConfig (ridgeStatus 5 5) 0 cexState).area.getD 1 0 := by
  decide!

/-- C1 (amended): every driver step is the composition, in this order,
of the accumulator pre-recording (when inside the trailing window),
the diffusion step, flow routing on the post-diffusion elevation, the
fluvial step using that post-diffusion routing, the accumulator
recording (when inside the window), and uplift; in particular
DiffusionSolver.step runs before FlowRouter.route in every step. -/
theorem claim1_step_order (cfg : Config) (st : ℕ → BStatus) (i : ℕ) (s : SimState) :
    stepSim cfg st i s =
      upliftPhase cfg st (recordEndPhase i (fluvialPhase cfg st
        (routingPhase cfg st (diffusionPhase cfg st (recordBeginPhase i s))))) :=
  stepSim_phases cfg st i s

/-- C2 (counterexample): on the flat 5 by 5 grid of the end-to-end
scenario (dx = 1, top and bottom edges FIXED_VALUE, left and right
CLOSED, D = 1.0, K_sp = 0.0, uplift 0.001 per step), a declared
duration of 5 steps does not raise CORE node 6 by exactly 5 * 0.001:
the driver loops range(nt + 1) times, and once the first uplift makes
the field non-flat, diffusion starts moving mass into the fixed
boundary. -/
theorem claim2_flat_uplift_cex :
    (runSim flatConfig (ridgeStatus 5 5) 5 flatElev25).elev.getD 6 0 ≠ 5 * (1 / 1000) := by
  decide!

/-- C2 (amended): with D = 0.0 instead of 1.0, the declared duration
of 5 steps executes 6 loop iterations (range(nt + 1),
src/ridge_model.py line 135) and raises every CORE node by exactly
6 * 0.001 = 0.006, changing no other node. -/
theorem claim2_flat_uplift_amended :
    (runSim flatConfigZeroD (ridgeStatus 5 5) 5 flatElev25).elev =
      (List.range 25).map (fun n => if ridgeStatus 5 5 n = core then 6 * (1 / 1000) else 0) := by
  decide!

/-- C3: for the configured run of nt = 1000 (so 1001 loop iterations)
with the trailing window of the 100 steps i = 901..1000 of duration
dt = 10 each, the reported per-node average rate is the sum over
exactly the window steps of the elevation drop across the diffusion
and fluvial updates of that step (stepDrop, which reads the elevation
before diffusion and after the fluvial solve, hence never includes the
uplift increment applied afterwards), multiplied by the reciprocal of
the window duration 100 * 10 = 1000 (the source scaling 0.001 of line
148). -/
theorem claim3_accumulator_rate (cfg : Config) (st : ℕ → BStatus) (z0 : List ℚ) (n : ℕ)
    (hz : z0.length = cfg.nr * cfg.nc) :
    elevOf (runSim cfg st 1000 z0).tEroDep n =
      (∑ j ∈ Finset.Icc 901 1000, stepDrop cfg st z0 j n) * (1 / ((100 : ℚ) * 10)) := by
  rw [runSim_tEroDep, elevOf_map_mul, tEroDep_accum cfg st z0 hz (1000 + 1) n]
  have hset : (Finset.range (1000 + 1)).filter (fun j => 900 < j) = Finset.Icc 901 1000 := by
    ext j
    simp only [Finset.mem_filter, Finset.mem_range, Finset.mem_Icc]
    omega
  rw [hset]
  norm_num

/-- Witness for C3 at the concrete flat scenario, node 6. -/
theorem claim3_accumulator_rate_witness :
    flatElev25.length = flatConfig.nr * flatConfig.nc ∧
    elevOf (runSim flatConfig (ridgeStatus 5 5) 1000 flatElev25).tEroDep 6 =
      (∑ j ∈ Finset.Icc 901 1000, stepDrop flatConfig (ridgeStatus 5 5) flatElev25 j 6) *
        (1 / ((100 : ℚ) * 10)) :=
  ⟨by decide, claim3_accumulator_rate flatConfig (ridgeStatus 5 5) flatElev25 6 (by decide)⟩

/-- C4: each uplift application adds exactly uplift_rate * dt to the
elevation of every CORE node and leaves every non-CORE (FIXED_VALUE or
CLOSED) node unchanged; the operation is a total function, so it never
fails. -/
theorem claim4_uplift_core_only (cfg : Config) (st : ℕ → BStatus) (s : SimState) (n : ℕ)
    (hn : n < s.elev.length) :
    elevOf (upliftPhase cfg st s).elev n =
      (if st n = core then elevOf s.elev n + cfg.upliftRate * cfg.dt
       else elevOf s.elev n) := by
  show elevOf (addCore st (cfg.upliftRate * cfg.dt) s.elev) n = _
  exact elevOf_addCore st _ s.elev n hn

/-- Witness for C4 at a concrete state and node. -/
theorem claim4_uplift_core_only_witness :
    0 < (initState flatElev25).elev.length ∧
    elevOf (upliftPhase flatConfig (ridgeStatus 5 5) (initState flatElev25)).elev 6 =
      (if ridgeStatus 5 5 6 = core then
        elevOf (initState flatElev25).elev 6 + flatConfig.upliftRate * flatConfig.dt
       else elevOf (initState flatElev25).elev 6) :=
  ⟨by decide, claim4_uplift_core_only flatConfig (ridgeStatus 5 5) (initState flatElev25) 6
    (by decide)⟩

/-- C5: a flat elevation field is a fixed point of the diffusion step:
for every grid shape, status assignment, legal diffusivity D and dt,
any number of applications of the implicit diffusion step leaves a
constant field exactly unchanged (with uplift and fluvial erosion out
of the picture, nothing else touches the elevations). -/
theorem claim5_flat_fixed_point (cfg : Config) (st : ℕ → BStatus) (c : ℚ) (k : ℕ)
    (hD : 0 ≤ cfg.diffusivity) (hdt : 0 ≤ cfg.dt) :
    (diffuse cfg.nr cfg.nc st (rcoef cfg))^[k] (List.replicate (cfg.nr * cfg.nc) c) =
      List.replicate (cfg.nr * cfg.nc) c := by
  have hr : 0 ≤ rcoef cfg := by
    unfold rcoef
    exact div_nonneg (mul_nonneg hD hdt) (mul_self_nonneg cfg.dx)
  induction k with
  | zero => rfl
  | succ k ih =>
    rw [Function.iterate_succ_apply, diffuse_const cfg.nr cfg.nc st (rcoef cfg) c hr, ih]

/-- Witness for C5 at the source configuration, elevation 7, three
steps. -/
theorem claim5_flat_fixed_point_witness :
    0 ≤ cexConfig.diffusivity ∧ 0 ≤ cexConfig.dt ∧
    (diffuse cexConfig.nr cexConfig.nc (ridgeStatus 5 5) (rcoef cexConfig))^[3]
        (List.replicate (cexConfig.nr * cexConfig.nc) 7) =
      List.replicate (cexConfig.nr * cexConfig.nc) 7 :=
  ⟨by norm_num [cexConfig], by norm_num [cexConfig],
    claim5_flat_fixed_point cexConfig (ridgeStatus 5 5) 7 3 (by norm_num [cexConfig])
      (by norm_num [cexConfig])⟩

/-- C6: if the stream power K_sp * A^m * S^n of a node (with the
receiver elevation final, as the downstream-to-upstream sweep
guarantees) does not exceed the configured threshold, the fluvial
solver leaves that node's elevation exactly unchanged in that step.
Proved for every area-exponent map and path-length assignment, hence
in particular for A^0.5 and the D8 link lengths. -/
theorem claim6_threshold_gating (cfg : Config) (st : ℕ → BStatus) (z : List ℚ) (m : ℕ)
    (hz : z.length = cfg.nr * cfg.nc)
    (hsp : streamPower cfg st z m ≤ cfg.thr) :
    elevOf (fluvialSolve cfg st z) m = elevOf z m := by
  by_cases hmem : m ∈ (procList cfg.nr cfg.nc st z).reverse
  · have hrecv : ∀ x, receiver cfg.nr cfg.nc st z x = x ∨
        elevOf z (receiver cfg.nr cfg.nc st z x) < elevOf z x := by
      intro x
      rcases receiver_cases cfg.nr cfg.nc st z x with h | ⟨_, _, hlt⟩
      · exact Or.inl h
      · exact Or.inr hlt
    have hnd : (procList cfg.nr cfg.nc st z).reverse.Nodup := by
      rw [List.nodup_reverse]
      exact procList_nodup cfg.nr cfg.nc st z
    have hpw : (procList cfg.nr cfg.nc st z).reverse.Pairwise
        (fun a b => elevOf z a ≤ elevOf z b) := by
      rw [List.pairwise_reverse]
      exact (procList_sorted cfg.nr cfg.nc st z).imp (by
        intro a b hab
        rcases hab with hl | ⟨hl, _⟩
        · exact le_of_lt hl
        · exact le_of_eq hl)
    have hbound : ∀ x ∈ (procList cfg.nr cfg.nc st z).reverse, x < z.length := by
      intro x hx
      rw [hz]
      exact ((mem_procList cfg.nr cfg.nc st z x).mp (List.mem_reverse.mp hx)).1
    have hspec := erodeSweep_spec cfg.Ksp cfg.thr cfg.dt cfg.pwA cfg.plen st
      (receiver cfg.nr cfg.nc st z) (drainage cfg.nr cfg.nc st cfg.dx z) (elevOf z) hrecv
      ((procList cfg.nr cfg.nc st z).reverse) z hnd hpw hbound m hmem
    show (fluvialSolve cfg st z).getD m 0 = z.getD m 0
    rw [show fluvialSolve cfg st z =
        erodeSweep cfg.Ksp cfg.thr cfg.dt cfg.pwA cfg.plen st
          (receiver cfg.nr cfg.nc st z) (drainage cfg.nr cfg.nc st cfg.dx z)
          ((procList cfg.nr cfg.nc st z).reverse) z from rfl]
    rw [hspec]
    by_cases hc : st m = core ∧ receiver cfg.nr cfg.nc st z m ≠ m
    · rw [if_pos hc, if_pos ?_]
      unfold streamPower at hsp
      unfold fluvialSolve at hsp
      unfold elevOf at hsp
      exact hsp
    · rw [if_neg hc]
  · show (fluvialSolve cfg st z).getD m 0 = z.getD m 0
    exact erodeSweep_getD_not_mem cfg.Ksp cfg.thr cfg.dt cfg.pwA cfg.plen st
      (receiver cfg.nr cfg.nc st z) (drainage cfg.nr cfg.nc st cfg.dx z) _ z m hmem

/-- Witness for C6: a flat field with a nonzero K_sp has stream power
0 at every node, which does not exceed the zero threshold, so node 4
is untouched. -/
theorem claim6_threshold_gating_witness :
    (List.replicate 9 (0 : ℚ)).length = gateConfig.nr * gateConfig.nc ∧
    streamPower gateConfig (ridgeStatus 3 3) (List.replicate 9 0) 4 ≤ gateConfig.thr ∧
    elevOf (fluvialSolve gateConfig (ridgeStatus 3 3) (List.replicate 9 0)) 4 =
      elevOf (List.replicate 9 (0 : ℚ)) 4 :=
  ⟨by decide, by decide!,
    claim6_threshold_gating gateConfig (ridgeStatus 3 3) (List.replicate 9 0) 4
      (by decide) (by decide!)⟩

/-- C7: for every elevation field (exact ties included), the receiver
relation computed by flow routing has no cycles: a node lying on a
cycle of any positive length is already its own receiver, and from
every node the receiver chain reaches a root, a node that is its own
receiver (a boundary or outlet node), in finitely many hops. -/
theorem claim7_receiver_acyclic (nr nc : ℕ) (st : ℕ → BStatus) (z : List ℚ) :
    (∀ n k, 0 < k → (receiver nr nc st z)^[k] n = n → receiver nr nc st z n = n) ∧
    (∀ n, ∃ k, (receiver nr nc st z)^[k + 1] n = (receiver nr nc st z)^[k] n) :=
  ⟨receiver_no_cycle nr nc st z, receiver_reaches_root nr nc st z⟩

/-- Witness for C7 on the flat 5 by 5 field at node 0 with cycle
length 1. -/
theorem claim7_receiver_acyclic_witness :
    0 < 1 ∧ (receiver 5 5 (ridgeStatus 5 5) flatElev25)^[1] 0 = 0 ∧
    receiver 5 5 (ridgeStatus 5 5) flatElev25 0 = 0 :=
  ⟨Nat.one_pos, by decide!,
    (claim7_receiver_acyclic 5 5 (ridgeStatus 5 5) flatElev25).1 0 1 Nat.one_pos (by decide!)⟩

/-- C8: for every grid, status assignment and elevation field (in
particular every connected single-outlet configuration), the total
drainage area accumulated at the outlet nodes (the nodes that are
their own receiver) equals the total domain area: the cell area dx^2
of every non-CLOSED node, counted exactly once. -/
theorem claim8_outlet_area_conservation (nr nc : ℕ) (st : ℕ → BStatus) (dx : ℚ)
    (z : List ℚ) :
    outletSum (receiver nr nc st z) (nr * nc) (drainage nr nc st dx z) =
      (((List.range (nr * nc)).filter (fun n => decide (st n ≠ closed))).map
        (fun _ => dx * dx)).sum :=
  drainage_outlet_conservation nr nc st dx z

/-- C9: after the boundary setup the four corner nodes are CLOSED and
not FIXED_VALUE: the east/west CLOSED writes run after the north/south
FIXED_VALUE writes and each edge includes its corners, so the later
CLOSED write determines every corner. -/
theorem claim9_corners_closed (nr nc : ℕ) (h1 : 0 < nr) (h2 : 0 < nc) :
    ridgeStatus nr nc 0 = closed ∧
    ridgeStatus nr nc (nc - 1) = closed ∧
    ridgeStatus nr nc ((nr - 1) * nc) = closed ∧
    ridgeStatus nr nc (nr * nc - 1) = closed ∧
    closed ≠ fixedValue := by
  obtain ⟨m, rfl⟩ : ∃ m, nr = m + 1 := ⟨nr - 1, by omega⟩
  obtain ⟨k, rfl⟩ : ∃ k, nc = k + 1 := ⟨nc - 1, by omega⟩
  refine ⟨?_, ?_, ?_, ?_, by decide⟩
  · have hmod : 0 % (k + 1) = 0 := Nat.zero_mod _
    simp [ridgeStatus, setLeftRight, hmod]
  · have hmod : (k + 1 - 1) % (k + 1) = k := by
      simp [Nat.mod_eq_of_lt]
    simp [ridgeStatus, setLeftRight, hmod]
  · have hmod : ((m + 1 - 1) * (k + 1)) % (k + 1) = 0 := by
      simp [Nat.mul_mod_left]
    simp [ridgeStatus, setLeftRight, hmod]
  · have hexp : (m + 1) * (k + 1) = (k + 1) * m + k + 1 := by ring
    have hrepr : (m + 1) * (k + 1) - 1 = (k + 1) * m + k := by omega
    have hmod : ((m + 1) * (k + 1) - 1) % (k + 1) = k := by
      rw [hrepr, Nat.mul_add_mod]
      exact Nat.mod_eq_of_lt (by omega)
    simp [ridgeStatus, setLeftRight, hmod]

/-- Witness for C9 on the 5 by 5 grid. -/
theorem claim9_corners_closed_witness :
    0 < 5 ∧ ridgeStatus 5 5 0 = closed ∧ ridgeStatus 5 5 (5 - 1) = closed ∧
    ridgeStatus 5 5 ((5 - 1) * 5) = closed ∧ ridgeStatus 5 5 (5 * 5 - 1) = closed ∧
    closed ≠ fixedValue := by
  have h := claim9_corners_closed 5 5 (by decide) (by decide)
  exact ⟨by decide, h.1, h.2.1, h.2.2.1, h.2.2.2.1, h.2.2.2.2⟩

/-- C10: inside the trailing window each step adds to the reported
per-node total the elevation before the diffusion and fluvial updates
minus the elevation after them, so net elevation loss (erosion) is
recorded as a positive contribution and net gain (deposition) as a
negative one; uplift is applied only after the contribution is
recorded. -/
theorem claim10_sign_convention (cfg : Config) (st : ℕ → BStatus) (s : SimState) (i n : ℕ)
    (hi : 900 < i) (h1 : s.elev.length = cfg.nr * cfg.nc)
    (h2 : s.tEroDep.length = cfg.nr * cfg.nc) (hn : n < cfg.nr * cfg.nc) :
    elevOf (stepSim cfg st i s).tEroDep n - elevOf s.tEroDep n =
      elevOf s.elev n -
        elevOf (fluvialSolve cfg st (diffuse cfg.nr cfg.nc st (rcoef cfg) s.elev)) n ∧
    (0 < elevOf (stepSim cfg st i s).tEroDep n - elevOf s.tEroDep n ↔
      elevOf (fluvialSolve cfg st (diffuse cfg.nr cfg.nc st (rcoef cfg) s.elev)) n <
        elevOf s.elev n) := by
  have hz2 : (fluvialSolve cfg st (diffuse cfg.nr cfg.nc st (rcoef cfg) s.elev)).length =
      cfg.nr * cfg.nc := by
    rw [fluvialSolve_length, diffuse_length]
  have hstep : (stepSim cfg st i s).tEroDep =
      addList s.tEroDep (subList s.elev
        (fluvialSolve cfg st (diffuse cfg.nr cfg.nc st (rcoef cfg) s.elev))) := by
    rw [stepSim_phases]
    simp only [upliftPhase, recordEndPhase, fluvialPhase, routingPhase, diffusionPhase,
      recordBeginPhase, if_pos hi]
  have hmain : elevOf (stepSim cfg st i s).tEroDep n - elevOf s.tEroDep n =
      elevOf s.elev n -
        elevOf (fluvialSolve cfg st (diffuse cfg.nr cfg.nc st (rcoef cfg) s.elev)) n := by
    rw [hstep]
    rw [elevOf_addList _ _ n (by rw [h2]; exact hn)
      (by simp only [subList, List.length_zipWith]; rw [h1, hz2]; simpa using hn)]
    rw [elevOf_subList _ _ n (by rw [h1]; exact hn) (by rw [hz2]; exact hn)]
    ring
  refine ⟨hmain, ?_⟩
  rw [hmain]
  exact sub_pos

/-- Witness for C10 on the one-node configuration at window step
901. -/
theorem claim10_sign_convention_witness :
    900 < 901 ∧ (initState [(5 : ℚ)]).elev.length = oneConfig.nr * oneConfig.nc ∧
    (initState [(5 : ℚ)]).tEroDep.length = oneConfig.nr * oneConfig.nc ∧
    (elevOf (stepSim oneConfig (ridgeStatus 1 1) 901 (initState [(5 : ℚ)])).tEroDep 0 -
        elevOf (initState [(5 : ℚ)]).tEroDep 0 =
      elevOf (initState [(5 : ℚ)]).elev 0 -
        elevOf (fluvialSolve oneConfig (ridgeStatus 1 1)
          (diffuse oneConfig.nr oneConfig.nc (ridgeStatus 1 1) (rcoef oneConfig)
            (initState [(5 : ℚ)]).elev)) 0) :=
  ⟨by decide, by decide, by decide,
    (claim10_sign_convention oneConfig (ridgeStatus 1 1) (initState [(5 : ℚ)]) 901 0
      (by decide) (by decide) (by decide) (by decide)).1⟩
